import Mathlib

/-!
Shallow embedding of the `robotics-rs` localization core
(`src/localization/{bayesian_filter,extended_kalman_filter,particle_filter}.rs`)
and verification of its specification.

Modelling conventions:
* The scalar type `T : RealField` is embedded as `ℚ` (exact ordered-field
  arithmetic standing in for the field operations the code performs).
* Statically sized vectors `SVector<T, N>` / `OVector<T, N>` become
  `Fin n → ℚ`, matrices become `Matrix (Fin m) (Fin n) ℚ`.
* Fallible operations (`unwrap` on `Option`/indexing, `unreachable!` hits,
  out-of-range indexing) are embedded with `Except Fault`, with a distinct
  `Fault` constructor per failure kind, so that the different panic paths of
  the source stay distinguishable.
* Randomness (`rand::thread_rng`) is derandomized: every function that draws
  from the generator receives the stream of uniform draws as an explicit
  argument `us : ℕ → ℚ` (draw number `j` of the call is `us j`), and
  multivariate-normal sampling receives an indexed family of samples.
-/

namespace RoboticsRs

open Matrix

/-- Vectors of dimension `n` over the scalar field, embedding `OVector<T, n>`. -/
abbrev Vec (n : ℕ) := Fin n → ℚ

/-- Matrices, embedding `OMatrix<T, m, n>` / `SMatrix<T, m, n>`. -/
abbrev Mat (m n : ℕ) := Matrix (Fin m) (Fin n) ℚ

/-- The distinguishable runtime failure kinds of the source: `Option::unwrap`
on `None`, reaching `unreachable!()`, and slice indexing out of range. -/
inductive Fault
  | unwrapNone
  | unreachableHit
  | indexOutOfRange
deriving DecidableEq

/-- Modelled from the spec (§6): the motion model capability injected at
construction (`crate::models::motion::MotionModel`), a pluggable pure
interface with `predict`/`jacobian_wrt_state` and a stochastic `sample`.
`sample` receives the index of the draw that the hidden generator would
produce, keeping it a pure function. -/
structure MotionModel (s z u : ℕ) where
  prediction : Vec s → Vec u → ℚ → Vec s
  jacobian_wrt_state : Vec s → Vec u → ℚ → Mat s s
  sample : ℕ → Vec s → Vec u → ℚ → Vec s

/-- Modelled from the spec (§6): the measurement model capability
(`crate::models::measurement::MeasurementModel`), with `predict` and
`jacobian` taking an optional landmark of type `L`. -/
structure MeasurementModel (s z : ℕ) (L : Type) where
  prediction : Vec s → Option L → Vec z
  jacobian : Vec s → Option L → Mat z s

/-- Modelled from the spec (§6): the multivariate-normal provided primitive
(`crate::utils::mvn::MultiVariateNormal`) already constructed at a given
mean/covariance: `pdf` evaluates the density, `sample i` is the `i`-th draw
of its sampling stream. Construction-time validation (failure on
non-positive-definite covariance) is guaranteed by the filter constructors,
which unwrap it when the filter is built. -/
structure MVNModel (n : ℕ) where
  pdf : Vec n → ℚ
  sample : ℕ → Vec n

/-- Embeds `crate::utils::state::GaussianStateStatic` (EKF state). -/
structure GaussianStateStatic (s : ℕ) where
  x : Vec s
  P : Mat s s

/-- Embeds `crate::utils::state::GaussianState` (particle-filter summary). -/
structure GaussianState (s : ℕ) where
  x : Vec s
  cov : Mat s s

/-- Embeds `ResamplingScheme` from `particle_filter.rs`. -/
inductive ResamplingScheme
  | IID
  | Stratified
  | Systematic

/-! ## Resampling module (`particle_filter.rs` lines 477-592) -/

/-- The running total `weights.iter().fold(T::zero(), |a, b| a + *b)` used by
the sweep-based resampling variants. -/
def totalOf (weights : List ℚ) : ℚ := weights.foldl (· + ·) 0

/-- The cumulative-weight vector built by `scan` in `resampling`:
`cumSum acc ws` lists the running totals starting from `acc`. -/
def cumSum (acc : ℚ) : List ℚ → List ℚ
  | [] => []
  | w :: ws => (acc + w) :: cumSum (acc + w) ws

/-- The inner selection loop of `resampling`: walk the particles, returning
the first particle whose cumulative weight strictly exceeds the draw
(`if cum_weight[i] > rng_nb return p`); falling off the end of the loop is
the `unreachable!()` of the source, and exhausting `cum` first is the
out-of-range indexing of `cum_weight[i]`. -/
def findFirst {α : Type} : List ℚ → List α → ℚ → Except Fault α
  | _, [], _ => .error .unreachableHit
  | [], _ :: _, _ => .error .indexOutOfRange
  | c :: cs, p :: ps, r =>
    if c > r then .ok p else findFirst cs ps r

/-- The draw loop of `resampling`: `k` remaining iterations, consuming
uniform draws `us j, us (j+1), ...` and selecting one particle per draw. -/
def selectMany {α : Type} (cum : List ℚ) (particules : List α) (weight_tot : ℚ)
    (us : ℕ → ℚ) : ℕ → ℕ → Except Fault (List α)
  | _, 0 => .ok []
  | j, k + 1 =>
    match findFirst cum particules (us j * weight_tot) with
    | .error e => .error e
    | .ok p =>
      match selectMany cum particules weight_tot us (j + 1) k with
      | .error e => .error e
      | .ok rest => .ok (p :: rest)

/-- Embeds `resampling` (multinomial, lines 477-507): cumulative weights by
`scan`, total from `cum_weight.last().unwrap()` (unwrap-on-`None` for an
empty weight vector), then one independent uniform draw per particle. -/
def resampling {α : Type} (particules : List α) (weights : List ℚ)
    (us : ℕ → ℚ) : Except Fault (List α) :=
  let cum_weight := cumSum 0 weights
  match cum_weight.getLast? with
  | none => .error .unwrapNone
  | some weight_tot => selectMany cum_weight particules weight_tot us 0 particules.length

/-- The inner `while cum_weight < draws[i]` loop of `resample`
(lines 579-588), recursing structurally on the not-yet-consumed suffix of
the weight vector (`rem` stands for `weights[index..]`). At the last
particle index the cumulative weight is clamped to the known total and the
loop breaks; running out of weights is the out-of-range `weights[index]`. -/
def sweepLoop (total : ℚ) (n : ℕ) (d : ℚ) : ℚ → ℕ → List ℚ → Except Fault (ℚ × ℕ × List ℚ)
  | cum, index, [] =>
    if cum < d then
      if index = n - 1 then .ok (total, index, [])
      else .error .indexOutOfRange
    else .ok (cum, index, [])
  | cum, index, w :: rest =>
    if cum < d then
      if index = n - 1 then .ok (total, index, w :: rest)
      else sweepLoop total n d (cum + w) (index + 1) rest
    else .ok (cum, index, w :: rest)

/-- The emitting map `(0..particules.len()).map(...)` of `resample`:
`k` iterations remain, `ds` is the unconsumed suffix of the sorted draws
(`draws[i]` read out of range when it is exhausted early), and each
iteration emits `particules[index]`. -/
def resampleGo {α : Type} (particules : List α) (n : ℕ) (total : ℚ) :
    List ℚ → ℚ → ℕ → List ℚ → ℕ → Except Fault (List α)
  | _, _, _, _, 0 => .ok []
  | [], _, _, _, _ + 1 => .error .indexOutOfRange
  | d :: ds, cum, index, rem, k + 1 =>
    match sweepLoop total n d cum index rem with
    | .error e => .error e
    | .ok (cum2, index2, rem2) =>
      match particules[index2]? with
      | none => .error .indexOutOfRange
      | some p =>
        match resampleGo particules n total ds cum2 index2 rem2 k with
        | .error e => .error e
        | .ok out => .ok (p :: out)

/-- Insertion of one element into a sorted list (helper for the model of
`sort_unstable_by`). -/
def insertSorted (x : ℚ) : List ℚ → List ℚ
  | [] => [x]
  | y :: ys => if x ≤ y then x :: y :: ys else y :: insertSorted x ys

/-- Model of `draws.sort_unstable_by(partial_cmp)`: sorting into ascending
order (for the linear order on `ℚ`, any correct sort yields this result). -/
def sortAsc (l : List ℚ) : List ℚ := l.foldr insertSorted []

/-- Embeds the shared selection sweep `resample` (lines 564-592): sort the
draws, initialize the cumulative pointer to `draws[0]` (out-of-range when
the draw vector is empty), then walk the cumulative-weight pointer. -/
def resample {α : Type} (draws : List ℚ) (total_weight : ℚ) (particules : List α)
    (weights : List ℚ) : Except Fault (List α) :=
  let ds := sortAsc draws
  match ds with
  | [] => .error .indexOutOfRange
  | d0 :: _ => resampleGo particules particules.length total_weight ds d0 0 weights particules.length

/-- Embeds `resampling_sort` (lines 509-523): `N` independent uniforms scaled
by the total weight, then the shared sweep. -/
def resampling_sort {α : Type} (particules : List α) (weights : List ℚ)
    (us : ℕ → ℚ) : Except Fault (List α) :=
  let total_weight := totalOf weights
  let draws := (List.range particules.length).map (fun j => us j * total_weight)
  resample draws total_weight particules weights

/-- Embeds `resampling_stratified` (lines 525-542): one uniform per stratum
`i`, draw `(i + u_i) / N * total`. -/
def resampling_stratified {α : Type} (particules : List α) (weights : List ℚ)
    (us : ℕ → ℚ) : Except Fault (List α) :=
  let total_weight := totalOf weights
  let draws := (List.range particules.length).map
    (fun (i : ℕ) => ((i : ℚ) + us i) / (particules.length : ℚ) * total_weight)
  resample draws total_weight particules weights

/-- Embeds `resampling_systematic` (lines 544-562): one shared offset
`draw = rng.gen()`, equally spaced draws `(i + draw) / N * total`. -/
def resampling_systematic {α : Type} (particules : List α) (weights : List ℚ)
    (us : ℕ → ℚ) : Except Fault (List α) :=
  let total_weight := totalOf weights
  let draw := us 0
  let draws := (List.range particules.length).map
    (fun (i : ℕ) => ((i : ℚ) + draw) / (particules.length : ℚ) * total_weight)
  resample draws total_weight particules weights

/-! ## Gaussian-estimate aggregator (`particle_filter.rs` lines 457-475) -/

/-- The mean computed by `gaussian_estimate`: the `fold` of the particles
divided componentwise by `N` (`T::from_usize(len)`). -/
def empiricalMean {s : ℕ} (particules : List (Vec s)) : Vec s :=
  fun i => (particules.foldl (· + ·) (0 : Vec s)) i / (particules.length : ℚ)

/-- The covariance computed by `gaussian_estimate`: the `fold` of the outer
products `dx * dxᵗ` of the centered particles, divided by `N`. -/
def empiricalCov {s : ℕ} (particules : List (Vec s)) : Mat s s :=
  Matrix.of fun i j =>
    (((particules.map (fun p => p - empiricalMean particules)).map
        (fun dx => vecMulVec dx dx)).foldl (· + ·) (0 : Mat s s)) i j
      / (particules.length : ℚ)

/-- Embeds the free function `gaussian_estimate` (lines 457-475): empirical
mean and biased covariance of the particles;
`particules[0].shape_generic()` is an out-of-range indexing when the
particle list is empty. -/
def gaussian_estimate {s : ℕ} (particules : List (Vec s)) : Except Fault (GaussianState s) :=
  match particules.head? with
  | none => .error .indexOutOfRange
  | some _ => .ok ⟨empiricalMean particules, empiricalCov particules⟩

/-! ## General particle filter (`particle_filter.rs` lines 54-189) -/

/-- Embeds the `GeneralParticleFilter` struct. -/
structure GeneralParticleFilter (s z u : ℕ) where
  r : Mat s s
  q : Mat z z
  measurement_model : MeasurementModel s z (Vec s)
  motion_model : MotionModel s z u
  particules : List (Vec s)
  resampling_scheme : ResamplingScheme

/-- The prediction phase of `GeneralParticleFilter::update_estimate`
(lines 126-132): with a control present, every particle moves to
`motion_model.prediction(p, control, dt) + mvn.sample()`, the `i`-th
particle consuming the `i`-th noise draw; without a control the particle
vector is untouched. `mvnR` is the zero-mean noise distribution with
covariance `r` built at line 121. -/
def predictPhase {s z u : ℕ} (pf : GeneralParticleFilter s z u) (mvnR : MVNModel s)
    (control? : Option (Vec u)) (dt : ℚ) : List (Vec s) :=
  match control? with
  | some control =>
    pf.particules.enum.map (fun ip =>
      pf.motion_model.prediction ip.2 control dt + mvnR.sample ip.1)
  | none => pf.particules

/-- One measurement of the weighting loop (lines 138-150): the weight of each particle is multiplied by the density of `measurement - z_pred` under the
zero-mean distribution with covariance `q`. -/
def weightStep {s z : ℕ} (mvnQ : MVNModel z) (mm : MeasurementModel s z (Vec s))
    (particules : List (Vec s)) (weights : List ℚ) (m : Vec z) : List ℚ :=
  List.zipWith (fun w p => w * mvnQ.pdf (m - mm.prediction p none)) weights particules

/-- The full weighting pass: weights start at `vec![T::one(); len]` and fold
every measurement of the batch in multiplicatively. -/
def computeWeights {s z : ℕ} (mvnQ : MVNModel z) (mm : MeasurementModel s z (Vec s))
    (particules : List (Vec s)) (measurements : List (Vec z)) : List ℚ :=
  measurements.foldl (weightStep mvnQ mm particules) (List.replicate particules.length 1)

/-- The dispatch on `self.resampling_scheme` (lines 152-156). -/
def applyScheme {α : Type} (scheme : ResamplingScheme) (particules : List α)
    (weights : List ℚ) (us : ℕ → ℚ) : Except Fault (List α) :=
  match scheme with
  | .IID => resampling_sort particules weights us
  | .Stratified => resampling_stratified particules weights us
  | .Systematic => resampling_systematic particules weights us

/-- Embeds `GeneralParticleFilter::update_estimate` (lines 118-158),
returning the new particle vector. `self.particules[0].shape_generic()`
(line 120) runs unconditionally and is an out-of-range indexing on an empty
particle vector. -/
def GeneralParticleFilter.update_estimate {s z u : ℕ} (pf : GeneralParticleFilter s z u)
    (mvnR : MVNModel s) (mvnQ : MVNModel z) (control? : Option (Vec u))
    (measurements? : Option (List (Vec z))) (dt : ℚ) (us : ℕ → ℚ) :
    Except Fault (List (Vec s)) :=
  match pf.particules.head? with
  | none => .error .indexOutOfRange
  | some _ =>
    let particules1 := predictPhase pf mvnR control? dt
    match measurements? with
    | none => .ok particules1
    | some measurements =>
      applyScheme pf.resampling_scheme particules1
        (computeWeights mvnQ pf.measurement_model particules1 measurements) us

/-- Embeds `GeneralParticleFilter::gaussian_estimate` (lines 160-162),
which delegates to the free aggregator on the current particles. -/
def GeneralParticleFilter.gaussian_estimate {s z u : ℕ}
    (pf : GeneralParticleFilter s z u) : Except Fault (GaussianState s) :=
  RoboticsRs.gaussian_estimate pf.particules

/-- A call to `gaussian_estimate` through the `&self` receiver: the result
paired with the receiver it leaves behind. The source takes `&self`, calls
no random generator and touches no field, so the receiver is returned as
is. -/
def GeneralParticleFilter.gaussian_estimate_call {s z u : ℕ}
    (pf : GeneralParticleFilter s z u) :
    Except Fault (GaussianState s) × GeneralParticleFilter s z u :=
  (pf.gaussian_estimate, pf)

/-! ## Known-correspondence particle filter (lines 192-321) -/

/-- Embeds the `GeneralParticleFilterKnownCorrespondences` struct; the
`FxHashMap<u32, OVector<T, S>>` landmark table is embedded as a partial
lookup function (`contains_key id` is `(landmarks id).isSome`). -/
structure GeneralParticleFilterKnownCorrespondences (s z u : ℕ) where
  q : Mat z z
  landmarks : ℕ → Option (Vec s)
  measurement_model : MeasurementModel s z (Vec s)
  motion_model : MotionModel s z u
  particules : List (Vec s)

/-- Prediction phase of the known-correspondence filter (lines 259-265):
with a control present, every particle is replaced by
`motion_model.sample(p, u, dt)`, the `i`-th particle consuming draw `i`. -/
def predictPhaseKC {s z u : ℕ} (pf : GeneralParticleFilterKnownCorrespondences s z u)
    (control? : Option (Vec u)) (dt : ℚ) : List (Vec s) :=
  match control? with
  | some control =>
    pf.particules.enum.map (fun ip => pf.motion_model.sample ip.1 ip.2 control dt)
  | none => pf.particules

/-- One tagged measurement of the known-correspondence weighting loop
(lines 275-288): the landmark is looked up (`self.landmarks.get(id)`) and
the weight of each particle is multiplied by the density of `z - z_pred`. -/
def weightStepKC {s z : ℕ} (mvnQ : MVNModel z) (mm : MeasurementModel s z (Vec s))
    (landmarks : ℕ → Option (Vec s)) (particules : List (Vec s)) (weights : List ℚ)
    (m : ℕ × Vec z) : List ℚ :=
  List.zipWith (fun w p => w * mvnQ.pdf (m.2 - mm.prediction p (landmarks m.1))) weights particules

/-- The known-correspondence weighting pass: only measurements whose tag is
present in the landmark table (`filter(contains_key)`) contribute. -/
def computeWeightsKC {s z : ℕ} (mvnQ : MVNModel z) (mm : MeasurementModel s z (Vec s))
    (landmarks : ℕ → Option (Vec s)) (particules : List (Vec s))
    (measurements : List (ℕ × Vec z)) : List ℚ :=
  (measurements.filter (fun idz => (landmarks idz.1).isSome)).foldl
    (weightStepKC mvnQ mm landmarks particules) (List.replicate particules.length 1)

/-- The correction phase of the known-correspondence filter (lines 268-291):
`measurements[0].1.shape_generic()` (line 270) indexes out of range on an
empty batch; otherwise the weights are computed over the filtered batch and
the multinomial `resampling` replaces the particle vector. -/
def correctPhaseKC {s z u : ℕ} (pf : GeneralParticleFilterKnownCorrespondences s z u)
    (mvnQ : MVNModel z) (particules1 : List (Vec s)) (measurements : List (ℕ × Vec z))
    (us : ℕ → ℚ) : Except Fault (List (Vec s)) :=
  match measurements.head? with
  | none => .error .indexOutOfRange
  | some _ =>
    resampling particules1
      (computeWeightsKC mvnQ pf.measurement_model pf.landmarks particules1 measurements) us

/-- Embeds `GeneralParticleFilterKnownCorrespondences::update_estimate`
(lines 252-292), returning the new particle vector. -/
def GeneralParticleFilterKnownCorrespondences.update_estimate {s z u : ℕ}
    (pf : GeneralParticleFilterKnownCorrespondences s z u) (mvnQ : MVNModel z)
    (control? : Option (Vec u)) (measurements? : Option (List (ℕ × Vec z))) (dt : ℚ)
    (us : ℕ → ℚ) : Except Fault (List (Vec s)) :=
  let particules1 := predictPhaseKC pf control? dt
  match measurements? with
  | none => .ok particules1
  | some measurements => correctPhaseKC pf mvnQ particules1 measurements us

/-- Embeds `GeneralParticleFilterKnownCorrespondences::gaussian_estimate`
(lines 294-296). -/
def GeneralParticleFilterKnownCorrespondences.gaussian_estimate {s z u : ℕ}
    (pf : GeneralParticleFilterKnownCorrespondences s z u) : Except Fault (GaussianState s) :=
  RoboticsRs.gaussian_estimate pf.particules

/-- A call to the known-correspondence `gaussian_estimate` through the
`&self` receiver, paired with the receiver it leaves behind. -/
def GeneralParticleFilterKnownCorrespondences.gaussian_estimate_call {s z u : ℕ}
    (pf : GeneralParticleFilterKnownCorrespondences s z u) :
    Except Fault (GaussianState s) × GeneralParticleFilterKnownCorrespondences s z u :=
  (pf.gaussian_estimate, pf)

/-! ## Extended Kalman filter (`extended_kalman_filter.rs`) -/

/-- Model of the `nalgebra` function `Matrix::try_inverse` over exact arithmetic: the
inverse `det⁻¹ • adjugate` when the matrix is invertible, `none` exactly
when it is singular. -/
def tryInverse {n : ℕ} (A : Mat n n) : Option (Mat n n) :=
  if A.det = 0 then none else some (A.det⁻¹ • A.adjugate)

/-- Embeds the `ExtendedKalmanFilter` struct (lines 10-15). -/
structure ExtendedKalmanFilter (s z u : ℕ) where
  R : Mat s s
  Q : Mat z z
  measurement_model : MeasurementModel s z (Vec z)
  motion_model : MotionModel s z u

/-- The predicted mean `x_pred = motion_model.prediction(x, u, dt)`
(line 46). -/
def ExtendedKalmanFilter.xPred {s z u : ℕ} (kf : ExtendedKalmanFilter s z u)
    (est : GaussianStateStatic s) (uu : Vec u) (dt : ℚ) : Vec s :=
  kf.motion_model.prediction est.x uu dt

/-- The predicted covariance `p_pred = G * P * Gᵗ + R` (lines 43-47). -/
def ExtendedKalmanFilter.pPred {s z u : ℕ} (kf : ExtendedKalmanFilter s z u)
    (est : GaussianStateStatic s) (uu : Vec u) (dt : ℚ) : Mat s s :=
  let G := kf.motion_model.jacobian_wrt_state est.x uu dt
  G * est.P * G.transpose + kf.R

/-- The measurement Jacobian `H` at the predicted state (line 50). -/
def ExtendedKalmanFilter.hJac {s z u : ℕ} (kf : ExtendedKalmanFilter s z u)
    (est : GaussianStateStatic s) (uu : Vec u) (dt : ℚ) : Mat z s :=
  kf.measurement_model.jacobian (kf.xPred est uu dt) none

/-- The innovation covariance `s = H * p_pred * Hᵗ + Q` (line 53). -/
def ExtendedKalmanFilter.sInn {s z u : ℕ} (kf : ExtendedKalmanFilter s z u)
    (est : GaussianStateStatic s) (uu : Vec u) (dt : ℚ) : Mat z z :=
  kf.hJac est uu dt * kf.pPred est uu dt * (kf.hJac est uu dt).transpose + kf.Q

/-- Embeds `ExtendedKalmanFilter::estimate` (lines 34-58); the
`try_inverse().unwrap()` at line 54 becomes the `unwrapNone` failure when
the innovation covariance is singular. -/
def ExtendedKalmanFilter.estimate {s z u : ℕ} (kf : ExtendedKalmanFilter s z u)
    (est : GaussianStateStatic s) (uu : Vec u) (zz : Vec z) (dt : ℚ) :
    Except Fault (GaussianStateStatic s) :=
  let x_pred := kf.xPred est uu dt
  let p_pred := kf.pPred est uu dt
  let H := kf.hJac est uu dt
  let z_pred := kf.measurement_model.prediction x_pred none
  match tryInverse (kf.sInn est uu dt) with
  | none => .error .unwrapNone
  | some sInv =>
    let kalman_gain := p_pred * H.transpose * sInv
    let x_est := x_pred + kalman_gain.mulVec (zz - z_pred)
    let p_est := ((1 : Mat s s) - kalman_gain * H) * p_pred
    .ok ⟨x_est, p_est⟩

/-- Embeds the `ExtendedKalmanFilterKnownCorrespondences` struct
(lines 62-73); the `HashMap<i32, SVector<T, Z>>` landmark table is embedded
as a partial lookup function. -/
structure ExtendedKalmanFilterKnownCorrespondences (s z u : ℕ) where
  R : Mat s s
  Q : Mat z z
  landmarks : ℤ → Option (Vec z)
  measurement_model : MeasurementModel s z (Vec z)
  motion_model : MotionModel s z u

/-- The prediction step of the known-correspondence EKF (lines 100-107):
mean and covariance after the motion update, before any correction. -/
def ExtendedKalmanFilterKnownCorrespondences.predictState {s z u : ℕ}
    (kf : ExtendedKalmanFilterKnownCorrespondences s z u) (est : GaussianStateStatic s)
    (uu : Vec u) (dt : ℚ) : GaussianStateStatic s :=
  let G := kf.motion_model.jacobian_wrt_state est.x uu dt
  ⟨kf.motion_model.prediction est.x uu dt, G * est.P * G.transpose + kf.R⟩

/-- The innovation covariance of one known-correspondence correction
(line 123) at state `st` for landmark `landmark`. -/
def ExtendedKalmanFilterKnownCorrespondences.sInnAt {s z u : ℕ}
    (kf : ExtendedKalmanFilterKnownCorrespondences s z u) (st : GaussianStateStatic s)
    (landmark : Vec z) : Mat z z :=
  let H := kf.measurement_model.jacobian st.x (some landmark)
  H * st.P * H.transpose + kf.Q

/-- One iteration of the known-correspondence correction loop
(lines 115-127): look the landmark up (`get(id).unwrap()`, always present
inside the filtered loop), invert the innovation covariance
(`try_inverse().unwrap()`), and fold the correction into the running
mean/covariance. -/
def ExtendedKalmanFilterKnownCorrespondences.correctStep {s z u : ℕ}
    (kf : ExtendedKalmanFilterKnownCorrespondences s z u) (st : GaussianStateStatic s)
    (idz : ℤ × Vec z) : Except Fault (GaussianStateStatic s) :=
  match kf.landmarks idz.1 with
  | none => .error .unwrapNone
  | some landmark =>
    let z_pred := kf.measurement_model.prediction st.x (some landmark)
    let H := kf.measurement_model.jacobian st.x (some landmark)
    match tryInverse (kf.sInnAt st landmark) with
    | none => .error .unwrapNone
    | some sInv =>
      let kalman_gain := st.P * H.transpose * sInv
      .ok ⟨st.x + kalman_gain.mulVec (idz.2 - z_pred),
           ((1 : Mat s s) - kalman_gain * H) * st.P⟩

/-- Fold of a fallible step over a list, stopping at the first failure
(the sequential correction loop with its in-loop unwraps). -/
def foldE {ε σ α : Type} (f : σ → α → Except ε σ) : σ → List α → Except ε σ
  | st, [] => .ok st
  | st, a :: l =>
    match f st a with
    | .error e => .error e
    | .ok st2 => foldE f st2 l

/-- Embeds `ExtendedKalmanFilterKnownCorrespondences::estimate`
(lines 93-129): predict, then sequentially fold one correction per
measurement whose identifier is present in the landmark table
(`filter(contains_key)`). -/
def ExtendedKalmanFilterKnownCorrespondences.estimate {s z u : ℕ}
    (kf : ExtendedKalmanFilterKnownCorrespondences s z u) (est : GaussianStateStatic s)
    (uu : Vec u) (z_vec : List (ℤ × Vec z)) (dt : ℚ) :
    Except Fault (GaussianStateStatic s) :=
  foldE kf.correctStep (kf.predictState est uu dt)
    (z_vec.filter (fun idz => (kf.landmarks idz.1).isSome))

/-! ## Concrete instances used to exercise the definitions -/

/-- A one-dimensional vector with the given entry. -/
def vec1 (a : ℚ) : Vec 1 := fun _ => a

/-- A concrete measurement model: identity prediction, zero Jacobian. -/
def mmC : MeasurementModel 1 1 (Vec 1) := ⟨fun p _ => p, fun _ _ => 0⟩

/-- A concrete motion model: identity prediction/sampling, zero Jacobian. -/
def moC : MotionModel 1 1 1 := ⟨fun p _ _ => p, fun _ _ _ => 0, fun _ p _ _ => p⟩

/-- A concrete multivariate-normal primitive: constant density one, zero
samples. -/
def mvnC : MVNModel 1 := ⟨fun _ => 1, fun _ => 0⟩

/-- A concrete uniform-draw stream, constantly one half. -/
def usHalf : ℕ → ℚ := fun _ => 1/2

/-- A concrete two-particle general filter. -/
def pfC : GeneralParticleFilter 1 1 1 := ⟨1, 1, mmC, moC, [vec1 0, vec1 1], .IID⟩

/-- A concrete two-particle known-correspondence filter with an empty
landmark table. -/
def pfkcC : GeneralParticleFilterKnownCorrespondences 1 1 1 :=
  ⟨1, fun _ => none, mmC, moC, [vec1 0, vec1 1]⟩

/-- A concrete known-correspondence particle filter whose table knows only
landmark `0`. -/
def pfkcD : GeneralParticleFilterKnownCorrespondences 1 1 1 :=
  ⟨1, fun i => if i = 0 then some (vec1 0) else none, mmC, moC, [vec1 0, vec1 1]⟩

/-- A concrete EKF with identity noise matrices. -/
def ekfC : ExtendedKalmanFilter 1 1 1 := ⟨1, 1, mmC, moC⟩

/-- A concrete EKF with zero measurement noise (its innovation covariance is
singular because the concrete Jacobians are zero). -/
def ekfS : ExtendedKalmanFilter 1 1 1 := ⟨1, 0, mmC, moC⟩

/-- A concrete known-correspondence EKF, zero measurement noise, knowing
only landmark `0`. -/
def ekfkcC : ExtendedKalmanFilterKnownCorrespondences 1 1 1 :=
  ⟨1, 0, fun i => if i = 0 then some (vec1 0) else none, mmC, moC⟩

/-- A concrete known-correspondence EKF with an identity-noise copy of the
same landmark table. -/
def ekfkcD : ExtendedKalmanFilterKnownCorrespondences 1 1 1 :=
  ⟨1, 1, fun i => if i = 0 then some (vec1 0) else none, mmC, moC⟩

/-- A concrete prior Gaussian state. -/
def gsC : GaussianStateStatic 1 := ⟨vec1 0, 1⟩

/-! ## Theorems -/

/-- C10: for both particle filters, `gaussian_estimate` is read-only and
deterministic: a call through the `&self` receiver returns the receiver
unchanged (no mutation, no resampling, no random draw), two consecutive
calls return the same summary, and the summary is a function of the
particle vector alone. -/
theorem c10_gaussian_estimate_readonly {s z u : ℕ} :
    ∀ (pf : GeneralParticleFilter s z u)
      (pfkc : GeneralParticleFilterKnownCorrespondences s z u),
      (pf.gaussian_estimate_call.2 = pf
        ∧ pf.gaussian_estimate_call.2.gaussian_estimate_call.1 = pf.gaussian_estimate_call.1
        ∧ pf.gaussian_estimate_call.1 = RoboticsRs.gaussian_estimate pf.particules
        ∧ pf.gaussian_estimate_call.2.particules = pf.particules)
      ∧ (pfkc.gaussian_estimate_call.2 = pfkc
        ∧ pfkc.gaussian_estimate_call.2.gaussian_estimate_call.1 = pfkc.gaussian_estimate_call.1
        ∧ pfkc.gaussian_estimate_call.1 = RoboticsRs.gaussian_estimate pfkc.particules
        ∧ pfkc.gaussian_estimate_call.2.particules = pfkc.particules) :=
  fun _ _ => ⟨⟨rfl, rfl, rfl, rfl⟩, ⟨rfl, rfl, rfl, rfl⟩⟩

/-- C7: with `control = None` the prediction phase leaves every particle
unchanged, with `measurements = None` no weighting and no resampling
happen, and with both `None` the particle vector is returned exactly
unchanged — for the general filter (which still indexes `particules[0]`
unconditionally, hence the non-empty hypothesis) and for the
known-correspondence filter. -/
theorem c7_update_estimate_frame {s z u : ℕ} (pf : GeneralParticleFilter s z u)
    (pfkc : GeneralParticleFilterKnownCorrespondences s z u)
    (mvnR : MVNModel s) (mvnQ : MVNModel z) (dt : ℚ) (us : ℕ → ℚ)
    (hne : pf.particules ≠ []) :
    (pf.update_estimate mvnR mvnQ none none dt us = .ok pf.particules)
    ∧ (∀ c : Vec u, pf.update_estimate mvnR mvnQ (some c) none dt us
        = .ok (predictPhase pf mvnR (some c) dt))
    ∧ (∀ ms : List (Vec z), pf.update_estimate mvnR mvnQ none (some ms) dt us
        = applyScheme pf.resampling_scheme pf.particules
            (computeWeights mvnQ pf.measurement_model pf.particules ms) us)
    ∧ (pfkc.update_estimate mvnQ none none dt us = .ok pfkc.particules)
    ∧ (∀ c : Vec u, pfkc.update_estimate mvnQ (some c) none dt us
        = .ok (predictPhaseKC pfkc (some c) dt))
    ∧ (∀ ms : List (ℕ × Vec z), pfkc.update_estimate mvnQ none (some ms) dt us
        = correctPhaseKC pfkc mvnQ pfkc.particules ms us) := by
  obtain ⟨a, t, hat⟩ := List.exists_cons_of_ne_nil hne
  refine ⟨?_, fun c => ?_, fun ms => ?_, rfl, fun c => rfl, fun ms => rfl⟩ <;>
    simp [GeneralParticleFilter.update_estimate, hat, predictPhase]

/-- C7 witness: the frame conditions at a concrete two-particle filter. -/
theorem c7_witness :
    (pfC.particules ≠ [])
    ∧ (pfC.update_estimate mvnC mvnC none none 0 usHalf = .ok pfC.particules)
    ∧ (pfkcC.update_estimate mvnC none none 0 usHalf = .ok pfkcC.particules) := by
  have h := c7_update_estimate_frame pfC pfkcC mvnC mvnC 0 usHalf (by simp [pfC])
  exact ⟨by simp [pfC], h.1, h.2.2.2.1⟩

/-- Folding addition from the zero of an additive monoid is the list sum. -/
theorem foldl_add_eq_sum {M : Type} [AddCommMonoid M] (l : List M) :
    l.foldl (· + ·) 0 = l.sum :=
  (List.sum_eq_foldl).symm

/-- C8: on a non-empty particle list, `gaussian_estimate` returns the
empirical mean (sum of particles over `N`) and the biased divide-by-`N`
covariance of outer products of the centered particles; on `N` copies of a
single point it returns that point with the zero matrix. -/
theorem c8_gaussian_estimate_moments {s : ℕ} (l : List (Vec s)) (hne : l ≠ []) :
    (gaussian_estimate l = .ok ⟨empiricalMean l, empiricalCov l⟩
      ∧ (∀ i, empiricalMean l i = l.sum i / (l.length : ℚ))
      ∧ (∀ i j, empiricalCov l i j =
          (l.map (fun p => vecMulVec (p - empiricalMean l) (p - empiricalMean l))).sum i j
            / (l.length : ℚ)))
    ∧ (∀ (p : Vec s) (m : ℕ), m ≠ 0 →
        gaussian_estimate (List.replicate m p) = .ok ⟨p, (0 : Mat s s)⟩) := by
  constructor
  · obtain ⟨a, t, hat⟩ := List.exists_cons_of_ne_nil hne
    refine ⟨by simp [gaussian_estimate, hat], fun i => ?_, fun i j => ?_⟩
    · simp [empiricalMean, foldl_add_eq_sum]
    · simp [empiricalCov, foldl_add_eq_sum, List.map_map, Function.comp_def]
  · intro p m hm
    have hmean : empiricalMean (List.replicate m p) = p := by
      funext i
      simp only [empiricalMean, foldl_add_eq_sum, List.sum_replicate, List.length_replicate,
        Pi.smul_apply, nsmul_eq_mul]
      exact mul_div_cancel_left₀ (p i) (Nat.cast_ne_zero.mpr hm)
    have hcov : empiricalCov (List.replicate m p) = 0 := by
      funext i j
      simp [empiricalCov, hmean, foldl_add_eq_sum, List.map_replicate, sub_self,
        List.sum_replicate, vecMulVec_apply]
    obtain ⟨k, rfl⟩ := Nat.exists_eq_succ_of_ne_zero hm
    have hh : (List.replicate (k + 1) p).head? = some p := by
      simp [List.replicate_succ]
    simp [gaussian_estimate, hh, hmean, hcov]

/-- C8 witness: a concrete collapsed two-particle list. -/
theorem c8_witness :
    (List.replicate 2 (vec1 3) ≠ [])
    ∧ gaussian_estimate (List.replicate 2 (vec1 3)) = .ok ⟨vec1 3, (0 : Mat 1 1)⟩ := by
  refine ⟨by simp, ?_⟩
  exact (c8_gaussian_estimate_moments (List.replicate 2 (vec1 3)) (by simp)).2 (vec1 3) 2
    (by norm_num)

/-! ### Resampling lemmas -/

theorem insertSorted_length (x : ℚ) (l : List ℚ) :
    (insertSorted x l).length = l.length + 1 := by
  induction l with
  | nil => rfl
  | cons y ys ih =>
    by_cases h : x ≤ y
    · simp [insertSorted, h]
    · simp [insertSorted, h, ih]

theorem sortAsc_length (l : List ℚ) : (sortAsc l).length = l.length := by
  induction l with
  | nil => rfl
  | cons y ys ih =>
    show (insertSorted y (sortAsc ys)).length = ys.length + 1
    rw [insertSorted_length, ih]

/-- Invariant preservation of the inner sweep loop: starting from a source
index below the particle count with `rem` holding exactly the unread
weights, the loop always returns without fault and keeps the index below
the particle count. -/
theorem sweepLoop_ok (total : ℚ) (n : ℕ) :
    ∀ (rem : List ℚ) (index : ℕ) (cum d : ℚ),
      index + rem.length = n → index + 1 ≤ n →
      ∃ cum2 index2 rem2,
        sweepLoop total n d cum index rem = .ok (cum2, index2, rem2)
        ∧ index2 + rem2.length = n ∧ index2 + 1 ≤ n := by
  intro rem
  induction rem with
  | nil =>
    intro index cum d hlen hlt
    refine False.elim ?_
    simp only [List.length_nil] at hlen
    omega
  | cons w rest ih =>
    intro index cum d hlen hlt
    by_cases hcd : cum < d
    · by_cases hidx : index = n - 1
      · exact ⟨total, index, w :: rest, by simp [sweepLoop, hcd, hidx], hlen, hlt⟩
      · have h1 : (index + 1) + rest.length = n := by
          simp only [List.length_cons] at hlen; omega
        have h2 : index + 1 + 1 ≤ n := by omega
        obtain ⟨c2, i2, r2, heq, hl2, hlt2⟩ := ih (index + 1) (cum + w) d h1 h2
        exact ⟨c2, i2, r2, by simp [sweepLoop, hcd, hidx, heq], hl2, hlt2⟩
    · exact ⟨cum, index, w :: rest, by simp [sweepLoop, hcd], hlen, hlt⟩

/-- The emitting loop of the sweep never faults: every iteration consumes
one sorted draw and reads a particle at an in-range index. -/
theorem resampleGo_ok {α : Type} (particules : List α) (total : ℚ) :
    ∀ (k : ℕ) (ds : List ℚ) (cum : ℚ) (index : ℕ) (rem : List ℚ),
      k ≤ ds.length → index + rem.length = particules.length →
      index + 1 ≤ particules.length →
      ∃ out, resampleGo particules particules.length total ds cum index rem k = .ok out
        ∧ out.length = k ∧ ∀ p ∈ out, p ∈ particules := by
  intro k
  induction k with
  | zero =>
    intro ds cum index rem _ _ _
    exact ⟨[], by simp [resampleGo], rfl, by simp⟩
  | succ k ih =>
    intro ds cum index rem hk hlen hlt
    cases ds with
    | nil => simp at hk
    | cons d ds2 =>
      obtain ⟨c2, i2, r2, hs, hl2, hlt2⟩ :=
        sweepLoop_ok total particules.length rem index cum d hlen hlt
      have hi2 : i2 < particules.length := by omega
      have hget : particules[i2]? = some particules[i2] := List.getElem?_eq_getElem hi2
      obtain ⟨out, hgo, hol, hom⟩ := ih ds2 c2 i2 r2
        (by simp only [List.length_cons] at hk; omega) hl2 hlt2
      refine ⟨particules[i2] :: out, by simp [resampleGo, hs, hget, hgo], by simp [hol], ?_⟩
      intro p hp
      rcases List.mem_cons.mp hp with h | h
      · subst h; exact List.getElem_mem hi2
      · exact hom p h

/-- The shared sweep on inputs shaped the way its callers build them
(`N` particles, `N` weights, `N` draws): it succeeds and returns `N`
copies of input particles. -/
theorem resample_ok {α : Type} (draws : List ℚ) (total : ℚ) (particules : List α)
    (weights : List ℚ) (hp : particules ≠ []) (hw : weights.length = particules.length)
    (hd : draws.length = particules.length) :
    ∃ out, resample draws total particules weights = .ok out
      ∧ out.length = particules.length ∧ ∀ p ∈ out, p ∈ particules := by
  have hn : 1 ≤ particules.length := List.length_pos.mpr hp
  have hsl : (sortAsc draws).length = particules.length := by rw [sortAsc_length, hd]
  cases hds : sortAsc draws with
  | nil => rw [hds] at hsl; simp at hsl; omega
  | cons d0 ds2 =>
    obtain ⟨out, hgo, hol, hom⟩ := resampleGo_ok particules total particules.length
      (d0 :: ds2) d0 0 weights (by rw [← hds]; exact le_of_eq hsl.symm)
      (by simpa using hw) (by omega)
    exact ⟨out, by simp [resample, hds, hgo], hol, hom⟩

theorem cumSum_length (acc : ℚ) (ws : List ℚ) : (cumSum acc ws).length = ws.length := by
  induction ws generalizing acc with
  | nil => rfl
  | cons w t ih => simp [cumSum, ih]

theorem getLast?_cons_ne {α : Type} (a : α) (l : List α) (h : l ≠ []) :
    (a :: l).getLast? = l.getLast? := by
  cases l with
  | nil => exact absurd rfl h
  | cons b t => exact List.getLast?_cons_cons ..

/-- The last entry of the cumulative-weight scan is the total weight. -/
theorem cumSum_getLast (acc : ℚ) (ws : List ℚ) (h : ws ≠ []) :
    (cumSum acc ws).getLast? = some (acc + ws.sum) := by
  induction ws generalizing acc with
  | nil => exact absurd rfl h
  | cons w t ih =>
    cases ht : t with
    | nil => subst ht; simp [cumSum]
    | cons w2 t2 =>
      subst ht
      have hne2 : cumSum (acc + w) (w2 :: t2) ≠ [] := by
        intro hcontra
        have := congrArg List.length hcontra
        simp [cumSum_length] at this
      rw [show cumSum acc (w :: w2 :: t2) = (acc + w) :: cumSum (acc + w) (w2 :: t2) from rfl,
        getLast?_cons_ne _ _ hne2, ih (acc + w) (by simp)]
      congr 1
      simp only [List.sum_cons]
      ring

/-- The selection walk of `resampling` succeeds whenever some cumulative
weight strictly exceeds the draw. -/
theorem findFirst_ok {α : Type} :
    ∀ (cum : List ℚ) (parts : List α) (r : ℚ),
      cum.length = parts.length → (∃ c ∈ cum, r < c) →
      ∃ p, findFirst cum parts r = .ok p ∧ p ∈ parts := by
  intro cum
  induction cum with
  | nil =>
    intro parts r hlen hex
    simp at hex
  | cons c cs ih =>
    intro parts r hlen hex
    cases parts with
    | nil => simp at hlen
    | cons p ps =>
      by_cases hc : c > r
      · exact ⟨p, by simp [findFirst, hc], by simp⟩
      · obtain ⟨c0, hc0mem, hc0⟩ := hex
        have hc0cs : c0 ∈ cs := by
          rcases List.mem_cons.mp hc0mem with h | h
          · subst h; exact absurd hc0 hc
          · exact h
        obtain ⟨q, hq, hqm⟩ := ih ps r (by simpa using hlen) ⟨c0, hc0cs, hc0⟩
        exact ⟨q, by simp [findFirst, hc, hq], List.mem_cons_of_mem p hqm⟩

theorem selectMany_ok {α : Type} (cum : List ℚ) (parts : List α) (tot : ℚ) (us : ℕ → ℚ)
    (hlen : cum.length = parts.length)
    (hfind : ∀ j : ℕ, ∃ c ∈ cum, us j * tot < c) :
    ∀ (k j : ℕ), ∃ out, selectMany cum parts tot us j k = .ok out
      ∧ out.length = k ∧ ∀ p ∈ out, p ∈ parts := by
  intro k
  induction k with
  | zero => intro j; exact ⟨[], by simp [selectMany], rfl, by simp⟩
  | succ k ih =>
    intro j
    obtain ⟨p, hp, hpm⟩ := findFirst_ok cum parts (us j * tot) hlen (hfind j)
    obtain ⟨out, ho, hol, hom⟩ := ih (j + 1)
    refine ⟨p :: out, by simp [selectMany, hp, ho], by simp [hol], ?_⟩
    intro q hq
    rcases List.mem_cons.mp hq with h | h
    · subst h; exact hpm
    · exact hom q h

/-- The multinomial `resampling` succeeds on positive weights and uniform
draws below one, returning `N` copies of input particles. -/
theorem resampling_ok {α : Type} (particules : List α) (weights : List ℚ) (us : ℕ → ℚ)
    (hp : particules ≠ []) (hw : weights.length = particules.length)
    (hpos : ∀ w ∈ weights, 0 < w) (hus : ∀ j, 0 ≤ us j ∧ us j < 1) :
    ∃ out, resampling particules weights us = .ok out
      ∧ out.length = particules.length ∧ ∀ p ∈ out, p ∈ particules := by
  have hwne : weights ≠ [] := by
    intro h
    rw [h] at hw
    exact hp (List.length_eq_zero.mp hw.symm)
  have hlast : (cumSum 0 weights).getLast? = some weights.sum := by
    rw [cumSum_getLast 0 weights hwne, zero_add]
  have htot : 0 < weights.sum := List.sum_pos weights hpos hwne
  have hmem : weights.sum ∈ cumSum 0 weights := List.mem_of_mem_getLast? hlast
  have hfind : ∀ j : ℕ, ∃ c ∈ cumSum 0 weights, us j * weights.sum < c := by
    intro j
    refine ⟨weights.sum, hmem, ?_⟩
    calc us j * weights.sum < 1 * weights.sum := mul_lt_mul_of_pos_right (hus j).2 htot
      _ = weights.sum := one_mul _
  obtain ⟨out, ho, hol, hom⟩ := selectMany_ok (cumSum 0 weights) particules weights.sum us
    (by rw [cumSum_length, hw]) hfind particules.length 0
  exact ⟨out, by simp [resampling, hlast, ho], hol, hom⟩

/-- C4: on a non-empty particle list with matching positive weights and
uniform draws in `[0, 1)`, every resampling routine returns exactly `N`
particles, each a copy of an input particle. -/
theorem c4_resampling_variants {α : Type} (particules : List α) (weights : List ℚ)
    (us : ℕ → ℚ) (hp : particules ≠ []) (hw : weights.length = particules.length)
    (hpos : ∀ w ∈ weights, 0 < w) (hus : ∀ j, 0 ≤ us j ∧ us j < 1) :
    (∃ out, resampling particules weights us = .ok out
      ∧ out.length = particules.length ∧ ∀ p ∈ out, p ∈ particules)
    ∧ (∃ out, resampling_sort particules weights us = .ok out
      ∧ out.length = particules.length ∧ ∀ p ∈ out, p ∈ particules)
    ∧ (∃ out, resampling_stratified particules weights us = .ok out
      ∧ out.length = particules.length ∧ ∀ p ∈ out, p ∈ particules)
    ∧ (∃ out, resampling_systematic particules weights us = .ok out
      ∧ out.length = particules.length ∧ ∀ p ∈ out, p ∈ particules) :=
  ⟨resampling_ok particules weights us hp hw hpos hus,
   resample_ok _ _ particules weights hp hw (by simp),
   resample_ok _ _ particules weights hp hw (by simp),
   resample_ok _ _ particules weights hp hw (by simp)⟩

/-- C4 witness: the four routines at a concrete two-particle input. -/
theorem c4_witness :
    (([1, 2] : List ℚ) ≠ [] ∧ ([1, 1] : List ℚ).length = ([1, 2] : List ℚ).length
      ∧ (∀ w ∈ ([1, 1] : List ℚ), 0 < w) ∧ (∀ j, 0 ≤ usHalf j ∧ usHalf j < 1))
    ∧ (∃ out, resampling ([1, 2] : List ℚ) [1, 1] usHalf = .ok out
      ∧ out.length = ([1, 2] : List ℚ).length ∧ ∀ p ∈ out, p ∈ ([1, 2] : List ℚ)) := by
  have h1 : (([1, 2] : List ℚ)) ≠ [] := by simp
  have h2 : ([1, 1] : List ℚ).length = ([1, 2] : List ℚ).length := by simp
  have h3 : ∀ w ∈ ([1, 1] : List ℚ), 0 < w := by norm_num
  have h4 : ∀ j, 0 ≤ usHalf j ∧ usHalf j < 1 := by
    intro j
    constructor <;> norm_num [usHalf]
  exact ⟨⟨h1, h2, h3, h4⟩, (c4_resampling_variants [1, 2] [1, 1] usHalf h1 h2 h3 h4).1⟩

/-- C5: the shared sweep, on inputs shaped as its callers build them, never
reads past the particle or weight list and always completes; at the last
source index a short cumulative weight is clamped to the known total and
the loop breaks, the emitted particle there being the last one. -/
theorem c5_resample_sweep_safety {α : Type} (particules : List α) (weights draws : List ℚ)
    (hp : particules ≠ []) (hw : weights.length = particules.length)
    (hd : draws.length = particules.length)
    (hpos : ∀ w ∈ weights, 0 < w)
    (hrange : ∀ d ∈ draws, 0 ≤ d ∧ d < totalOf weights) :
    (∃ out, resample draws (totalOf weights) particules weights = .ok out
      ∧ out.length = particules.length ∧ ∀ p ∈ out, p ∈ particules)
    ∧ (∀ (cum d : ℚ) (rem : List ℚ), cum < d →
        sweepLoop (totalOf weights) particules.length d cum (particules.length - 1) rem
          = .ok (totalOf weights, particules.length - 1, rem))
    ∧ particules[particules.length - 1]? = some (particules.getLast hp) := by
  refine ⟨resample_ok draws (totalOf weights) particules weights hp hw hd, ?_, ?_⟩
  · intro cum d rem hcd
    cases rem with
    | nil => simp [sweepLoop, hcd]
    | cons w rest => simp [sweepLoop, hcd]
  · have hn : 1 ≤ particules.length := List.length_pos.mpr hp
    have hlt : particules.length - 1 < particules.length := by omega
    rw [List.getElem?_eq_getElem hlt, List.getLast_eq_getElem]

/-- C5 witness: the sweep at a concrete two-particle input with in-range
draws. -/
theorem c5_witness :
    (([5, 7] : List ℚ) ≠ [] ∧ ([1, 1] : List ℚ).length = ([5, 7] : List ℚ).length
      ∧ ([0, 1] : List ℚ).length = ([5, 7] : List ℚ).length
      ∧ (∀ w ∈ ([1, 1] : List ℚ), 0 < w)
      ∧ (∀ d ∈ ([0, 1] : List ℚ), 0 ≤ d ∧ d < totalOf [1, 1]))
    ∧ (∃ out, resample [0, 1] (totalOf [1, 1]) ([5, 7] : List ℚ) [1, 1] = .ok out
      ∧ out.length = ([5, 7] : List ℚ).length ∧ ∀ p ∈ out, p ∈ ([5, 7] : List ℚ)) := by
  have h1 : (([5, 7] : List ℚ)) ≠ [] := by simp
  have h2 : ([1, 1] : List ℚ).length = ([5, 7] : List ℚ).length := by simp
  have h3 : ([0, 1] : List ℚ).length = ([5, 7] : List ℚ).length := by simp
  have h4 : ∀ w ∈ ([1, 1] : List ℚ), 0 < w := by norm_num
  have h5 : ∀ d ∈ ([0, 1] : List ℚ), 0 ≤ d ∧ d < totalOf [1, 1] := by
    intro d hd
    rcases List.mem_cons.mp hd with h | h
    · subst h; norm_num [totalOf]
    · simp at h; subst h; norm_num [totalOf]
  exact ⟨⟨h1, h2, h3, h4, h5⟩,
    (c5_resample_sweep_safety [5, 7] [1, 1] [0, 1] h1 h2 h3 h4 h5).1⟩

/-- When no cumulative weight exceeds the draw, the selection walk of
`resampling` falls off the end of the particle loop into `unreachable!()`. -/
theorem findFirst_none {α : Type} :
    ∀ (cum : List ℚ) (parts : List α) (r : ℚ),
      parts.length ≤ cum.length → (∀ c ∈ cum, ¬ r < c) →
      findFirst cum parts r = .error Fault.unreachableHit := by
  intro cum
  induction cum with
  | nil =>
    intro parts r hlen _
    have hp : parts = [] := List.length_eq_zero.mp (Nat.le_zero.mp (by simpa using hlen))
    subst hp
    rfl
  | cons c cs ih =>
    intro parts r hlen hall
    cases parts with
    | nil => rfl
    | cons p ps =>
      have hc : ¬ r < c := hall c (by simp)
      rw [show findFirst (c :: cs) (p :: ps) r
            = if c > r then .ok p else findFirst cs ps r from rfl, if_neg hc]
      exact ih ps r (by simpa using hlen) (fun c2 hc2 => hall c2 (List.mem_cons_of_mem c hc2))

/-- Every entry of the cumulative scan of an all-zero weight vector equals
the initial accumulator. -/
theorem cumSum_replicate_zero : ∀ (n : ℕ) (acc c : ℚ),
    c ∈ cumSum acc (List.replicate n 0) → c = acc := by
  intro n
  induction n with
  | zero => intro acc c hc; simp [cumSum] at hc
  | succ k ih =>
    intro acc c hc
    rw [List.replicate_succ,
      show cumSum acc ((0 : ℚ) :: List.replicate k 0)
        = (acc + 0) :: cumSum (acc + 0) (List.replicate k 0) from rfl] at hc
    rcases List.mem_cons.mp hc with h | h
    · rw [h, add_zero]
    · rw [ih (acc + 0) c h, add_zero]

/-- C9 counterexample: on the empty input (with the empty draw vector its
callers build), the shared sweep `resample` fails precisely by indexing
`draws[0]` out of range — the failure mode the claim says is avoided —
while `resampling` on the empty input panics on `unwrap` and a zero-total
weight vector is not rejected at all (the sorted-multinomial variant
returns normally). -/
theorem c9_counterexample :
    resample ([] : List ℚ) 0 ([] : List ℚ) [] = .error Fault.indexOutOfRange
    ∧ resampling ([] : List ℚ) [] usHalf = .error Fault.unwrapNone
    ∧ resampling_sort [(1 : ℚ)] [0] usHalf = .ok [1] := by
  refine ⟨rfl, rfl, ?_⟩
  norm_num [resampling_sort, totalOf, resample, sortAsc, insertSorted, resampleGo, sweepLoop,
    List.range_succ, usHalf]

/-- C9 amended: neither the empty particle set nor a zero total weight is
rejected with a clear explicit error. On the empty input, `resampling`
panics via `unwrap`-on-`None` and the shared sweep via an out-of-range read
of `draws[0]`; on an all-zero weight vector, `resampling` reaches the
`unreachable!()` panic, while the sweep-based variants return normally with
no rejection. -/
theorem c9_amended {α : Type} (us : ℕ → ℚ) :
    (resampling ([] : List α) [] us = .error Fault.unwrapNone)
    ∧ (∀ total : ℚ, resample ([] : List ℚ) total ([] : List α) [] = .error Fault.indexOutOfRange)
    ∧ (∀ particules : List α, particules ≠ [] →
        resampling particules (List.replicate particules.length 0) us
          = .error Fault.unreachableHit)
    ∧ (∀ p : α, resampling_sort [p] [0] us = .ok [p]) := by
  refine ⟨rfl, fun total => rfl, ?_, ?_⟩
  · intro particules hpne
    obtain ⟨a, t, rfl⟩ := List.exists_cons_of_ne_nil hpne
    have hrep : List.replicate (a :: t).length (0 : ℚ) ≠ [] := by simp
    have hlast : (cumSum 0 (List.replicate (a :: t).length (0 : ℚ))).getLast? = some 0 := by
      rw [cumSum_getLast 0 _ hrep]
      simp
    have hff : findFirst (cumSum 0 (List.replicate (a :: t).length (0 : ℚ))) (a :: t) 0
        = .error Fault.unreachableHit := by
      apply findFirst_none
      · rw [cumSum_length]; simp
      · intro c hc
        rw [cumSum_replicate_zero (a :: t).length 0 c hc]
        simp
    simp only [List.length_cons] at hlast hff
    simp [resampling, hlast, selectMany, hff]
  · intro p
    simp [resampling_sort, resample, sortAsc, insertSorted, resampleGo, sweepLoop, totalOf]

/-- C9 amended witness: the `unreachable!()` panic at a concrete all-zero
weight vector. -/
theorem c9_witness :
    (([1, 2] : List ℚ) ≠ [])
    ∧ resampling ([1, 2] : List ℚ) (List.replicate ([1, 2] : List ℚ).length 0) usHalf
        = .error Fault.unreachableHit :=
  ⟨by simp, (c9_amended usHalf).2.2.1 [1, 2] (by simp)⟩

/-! ### Weighting lemmas -/

theorem zipWith_zipWith_left2 {α β γ δ : Type} (g : γ → β → δ) (h : α → β → γ) :
    ∀ (as : List α) (bs : List β),
      List.zipWith g (List.zipWith h as bs) bs
        = List.zipWith (fun a b => g (h a b) b) as bs := by
  intro as
  induction as with
  | nil => intro bs; simp
  | cons a as2 ih =>
    intro bs
    cases bs with
    | nil => simp
    | cons b bs2 => simp [ih bs2]

theorem zipWith_congr2 {α β γ : Type} (f g : α → β → γ) (h : ∀ a b, f a b = g a b) :
    ∀ (as : List α) (bs : List β), List.zipWith f as bs = List.zipWith g as bs := by
  intro as
  induction as with
  | nil => intro bs; simp
  | cons a as2 ih =>
    intro bs
    cases bs with
    | nil => simp
    | cons b bs2 => simp [h, ih bs2]

theorem zipWith_left_proj {γ : Type} :
    ∀ (ws : List ℚ) (parts : List γ), ws.length = parts.length →
      List.zipWith (fun w _ => w) ws parts = ws := by
  intro ws
  induction ws with
  | nil => intro parts _; simp
  | cons w ws2 ih =>
    intro parts hl
    cases parts with
    | nil => simp at hl
    | cons p ps => simp [ih ps (by simpa using hl)]

theorem zipWith_replicate_one {γ : Type} (f : ℚ → γ → ℚ) :
    ∀ parts : List γ,
      List.zipWith f (List.replicate parts.length 1) parts = parts.map (f 1) := by
  intro parts
  induction parts with
  | nil => rfl
  | cons p ps ih => simp [List.replicate_succ, ih]

/-- Folding the per-measurement weighting pass from any starting weight
vector multiplies each starting weight by the product of the per-particle
densities over the batch. -/
theorem foldl_weightStep {s z : ℕ} (mvnQ : MVNModel z) (mm : MeasurementModel s z (Vec s))
    (parts : List (Vec s)) :
    ∀ (ms : List (Vec z)) (ws : List ℚ), ws.length = parts.length →
      ms.foldl (weightStep mvnQ mm parts) ws
        = List.zipWith
            (fun w p => w * (ms.map (fun m => mvnQ.pdf (m - mm.prediction p none))).prod)
            ws parts := by
  intro ms
  induction ms with
  | nil =>
    intro ws hl
    simp only [List.foldl_nil, List.map_nil, List.prod_nil]
    rw [zipWith_congr2 _ (fun w _ => w) (fun a _ => mul_one a) ws parts]
    exact (zipWith_left_proj ws parts hl).symm
  | cons m ms2 ih =>
    intro ws hl
    rw [List.foldl_cons]
    have hlen2 : (weightStep mvnQ mm parts ws m).length = parts.length := by
      simp [weightStep, hl]
    rw [ih (weightStep mvnQ mm parts ws m) hlen2, weightStep, zipWith_zipWith_left2]
    apply zipWith_congr2
    intro a b
    simp only [List.map_cons, List.prod_cons]
    ring

/-- The weight vector of one correction pass equals, particle by particle,
the product of the measurement densities, starting from one. -/
theorem computeWeights_eq {s z : ℕ} (mvnQ : MVNModel z) (mm : MeasurementModel s z (Vec s))
    (parts : List (Vec s)) (ms : List (Vec z)) :
    computeWeights mvnQ mm parts ms
      = parts.map (fun p => (ms.map (fun m => mvnQ.pdf (m - mm.prediction p none))).prod) := by
  rw [computeWeights, foldl_weightStep mvnQ mm parts ms _ (by simp), zipWith_replicate_one]
  simp [one_mul]

/-- C3: whenever a measurement batch is supplied, the update hands the
selected resampling scheme exactly the freshly computed weight vector
whose entry for each particle is the product over the batch of the density
of `measurement - prediction(particle)` under the zero-mean covariance-`Q`
distribution, starting from one. -/
theorem c3_importance_weights {s z u : ℕ} (pf : GeneralParticleFilter s z u)
    (mvnR : MVNModel s) (mvnQ : MVNModel z) (control? : Option (Vec u))
    (ms : List (Vec z)) (dt : ℚ) (us : ℕ → ℚ) (hne : pf.particules ≠ []) :
    pf.update_estimate mvnR mvnQ control? (some ms) dt us
      = applyScheme pf.resampling_scheme (predictPhase pf mvnR control? dt)
          ((predictPhase pf mvnR control? dt).map
            (fun p =>
              (ms.map (fun m => mvnQ.pdf (m - pf.measurement_model.prediction p none))).prod))
          us := by
  obtain ⟨a, t, hat⟩ := List.exists_cons_of_ne_nil hne
  simp [GeneralParticleFilter.update_estimate, hat, computeWeights_eq]

/-- C3 witness: the weight identity at a concrete two-particle filter with
one measurement. -/
theorem c3_witness :
    (pfC.particules ≠ [])
    ∧ pfC.update_estimate mvnC mvnC none (some [vec1 0]) 0 usHalf
      = applyScheme pfC.resampling_scheme (predictPhase pfC mvnC none 0)
          ((predictPhase pfC mvnC none 0).map
            (fun p => (([vec1 0] : List (Vec 1)).map
              (fun m => mvnC.pdf (m - pfC.measurement_model.prediction p none))).prod))
          usHalf :=
  ⟨by simp [pfC], c3_importance_weights pfC mvnC mvnC none [vec1 0] 0 usHalf (by simp [pfC])⟩

/-- C6 counterexample: with an empty landmark table, a batch holding only
one unknown-tagged measurement is processed (uniform-weight resampling
replaces the particles), while the same call with that measurement removed
indexes `measurements[0]` out of range — the two calls are not identical. -/
theorem c6_counterexample :
    pfkcC.update_estimate mvnC none (some [(7, vec1 0)]) 0 usHalf
      ≠ pfkcC.update_estimate mvnC none (some []) 0 usHalf := by
  have hrhs : pfkcC.update_estimate mvnC none (some []) 0 usHalf
      = .error Fault.indexOutOfRange := rfl
  have hlhs : pfkcC.update_estimate mvnC none (some [(7, vec1 0)]) 0 usHalf
      = .ok [vec1 1, vec1 1] := by
    norm_num [GeneralParticleFilterKnownCorrespondences.update_estimate, predictPhaseKC,
      correctPhaseKC, pfkcC, computeWeightsKC, weightStepKC, resampling, cumSum,
      selectMany, findFirst, usHalf, List.replicate_succ]
  rw [hlhs, hrhs]
  simp

/-- C6 amended: a measurement tagged with an identifier absent from the
table is skipped, and the call is identical to omitting it — for the
known-correspondence EKF always, and for the known-correspondence particle
filter whenever at least one measurement remains after the removal (an
unknown-tagged singleton batch diverges from the empty batch, which
panics on `measurements[0]`). -/
theorem c6_amended {s z u : ℕ}
    (kf : ExtendedKalmanFilterKnownCorrespondences s z u) (est : GaussianStateStatic s)
    (uu : Vec u) (dt : ℚ) (idu : ℤ) (zu : Vec z) (v1 v2 : List (ℤ × Vec z))
    (hku : kf.landmarks idu = none)
    (pf : GeneralParticleFilterKnownCorrespondences s z u) (mvnQ : MVNModel z)
    (control? : Option (Vec u)) (dtp : ℚ) (us : ℕ → ℚ) (idp : ℕ) (zp : Vec z)
    (m1 m2 : List (ℕ × Vec z)) (hpu : pf.landmarks idp = none) (hm : m1 ++ m2 ≠ []) :
    kf.estimate est uu (v1 ++ (idu, zu) :: v2) dt = kf.estimate est uu (v1 ++ v2) dt
    ∧ pf.update_estimate mvnQ control? (some (m1 ++ (idp, zp) :: m2)) dtp us
      = pf.update_estimate mvnQ control? (some (m1 ++ m2)) dtp us := by
  constructor
  · simp [ExtendedKalmanFilterKnownCorrespondences.estimate, List.filter_append,
      List.filter_cons, hku]
  · cases m1 with
    | nil =>
      obtain ⟨b, t2, rfl⟩ := List.exists_cons_of_ne_nil (by simpa using hm)
      show correctPhaseKC pf mvnQ (predictPhaseKC pf control? dtp)
            ((idp, zp) :: b :: t2) us
          = correctPhaseKC pf mvnQ (predictPhaseKC pf control? dtp) (b :: t2) us
      simp [correctPhaseKC, computeWeightsKC, List.filter_cons, hpu]
    | cons a1 t1 =>
      show correctPhaseKC pf mvnQ (predictPhaseKC pf control? dtp)
            (a1 :: (t1 ++ (idp, zp) :: m2)) us
          = correctPhaseKC pf mvnQ (predictPhaseKC pf control? dtp)
            (a1 :: (t1 ++ m2)) us
      simp [correctPhaseKC, computeWeightsKC, List.filter_cons, List.filter_append, hpu]

/-- C6 amended witness: concrete known-correspondence filters, an unknown
tag `7`, and one remaining known measurement. -/
theorem c6_witness :
    (ekfkcD.landmarks 7 = none ∧ pfkcD.landmarks 7 = none
      ∧ ([((0 : ℕ), vec1 0)] ++ ([] : List (ℕ × Vec 1)) ≠ []))
    ∧ ekfkcD.estimate gsC (vec1 0) ([] ++ ((7 : ℤ), vec1 0) :: []) 0
        = ekfkcD.estimate gsC (vec1 0) ([] ++ []) 0
    ∧ pfkcD.update_estimate mvnC none (some ([(0, vec1 0)] ++ ((7 : ℕ), vec1 0) :: [])) 0 usHalf
        = pfkcD.update_estimate mvnC none (some ([(0, vec1 0)] ++ [])) 0 usHalf := by
  have h1 : ekfkcD.landmarks 7 = none := by norm_num [ekfkcD]
  have h2 : pfkcD.landmarks 7 = none := by norm_num [pfkcD]
  have h3 : [((0 : ℕ), vec1 0)] ++ ([] : List (ℕ × Vec 1)) ≠ [] := by simp
  have h := c6_amended ekfkcD gsC (vec1 0) 0 7 (vec1 0) [] [] h1 pfkcD mvnC none 0 usHalf
    7 (vec1 0) [(0, vec1 0)] [] h2 h3
  exact ⟨⟨h1, h2, h3⟩, h.1, h.2⟩

/-! ### Extended Kalman filter theorems -/

/-- C1: with an invertible innovation covariance, `estimate` returns exactly
the two-phase computation — predicted mean and covariance, then the
correction with gain `K = P_pred * Hᵗ * S_inn⁻¹`, mean
`x_pred + K * (z - z_pred)` and covariance `(I - K * H) * P_pred`. -/
theorem c1_ekf_estimate {s z u : ℕ} (kf : ExtendedKalmanFilter s z u)
    (est : GaussianStateStatic s) (uu : Vec u) (zz : Vec z) (dt : ℚ)
    (h : (kf.sInn est uu dt).det ≠ 0) :
    kf.estimate est uu zz dt
      = .ok ⟨kf.xPred est uu dt
              + (kf.pPred est uu dt * (kf.hJac est uu dt).transpose
                  * (kf.sInn est uu dt)⁻¹).mulVec
                (zz - kf.measurement_model.prediction (kf.xPred est uu dt) none),
            ((1 : Mat s s)
                - kf.pPred est uu dt * (kf.hJac est uu dt).transpose
                  * (kf.sInn est uu dt)⁻¹ * kf.hJac est uu dt)
              * kf.pPred est uu dt⟩ := by
  have htry : tryInverse (kf.sInn est uu dt) = some (kf.sInn est uu dt)⁻¹ := by
    rw [tryInverse, if_neg h, Matrix.inv_def, Ring.inverse_eq_inv]
  simp [ExtendedKalmanFilter.estimate, htry]

/-- C1 witness: the closed-form correction at a concrete one-dimensional
filter whose innovation covariance is the identity. -/
theorem c1_witness :
    ((ekfC.sInn gsC (vec1 0) 0).det ≠ 0)
    ∧ ekfC.estimate gsC (vec1 0) (vec1 0) 0
      = .ok ⟨ekfC.xPred gsC (vec1 0) 0
              + (ekfC.pPred gsC (vec1 0) 0 * (ekfC.hJac gsC (vec1 0) 0).transpose
                  * (ekfC.sInn gsC (vec1 0) 0)⁻¹).mulVec
                (vec1 0 - ekfC.measurement_model.prediction (ekfC.xPred gsC (vec1 0) 0) none),
            ((1 : Mat 1 1)
                - ekfC.pPred gsC (vec1 0) 0 * (ekfC.hJac gsC (vec1 0) 0).transpose
                  * (ekfC.sInn gsC (vec1 0) 0)⁻¹ * ekfC.hJac gsC (vec1 0) 0)
              * ekfC.pPred gsC (vec1 0) 0⟩ := by
  have hs : ekfC.sInn gsC (vec1 0) 0 = 1 := by
    simp [ExtendedKalmanFilter.sInn, ExtendedKalmanFilter.hJac, ExtendedKalmanFilter.pPred,
      ekfC, mmC, moC]
  have hdet : (ekfC.sInn gsC (vec1 0) 0).det ≠ 0 := by
    rw [hs, Matrix.det_one]
    norm_num
  exact ⟨hdet, c1_ekf_estimate ekfC gsC (vec1 0) (vec1 0) 0 hdet⟩

/-- C2: a singular innovation covariance surfaces as the distinguishable
`unwrapNone` failure (never as a state): for the plain EKF whenever
`S_inn` is singular, and for the known-correspondence EKF whenever the
first table-matched measurement yields a singular per-landmark innovation
covariance at the predicted state. The estimate passed in is borrowed
immutably, so the prior belief is left intact. -/
theorem c2_singular_innovation {s z u : ℕ} (kf : ExtendedKalmanFilter s z u)
    (kfkc : ExtendedKalmanFilterKnownCorrespondences s z u)
    (est : GaussianStateStatic s) (uu : Vec u) (zz : Vec z) (dt : ℚ)
    (z_vec : List (ℤ × Vec z)) (idz : ℤ × Vec z) (rest : List (ℤ × Vec z)) (lm : Vec z)
    (h1 : (kf.sInn est uu dt).det = 0)
    (hf : z_vec.filter (fun iz => (kfkc.landmarks iz.1).isSome) = idz :: rest)
    (hlm : kfkc.landmarks idz.1 = some lm)
    (h2 : (kfkc.sInnAt (kfkc.predictState est uu dt) lm).det = 0) :
    kf.estimate est uu zz dt = .error Fault.unwrapNone
    ∧ kfkc.estimate est uu z_vec dt = .error Fault.unwrapNone := by
  constructor
  · have htry : tryInverse (kf.sInn est uu dt) = none := by
      rw [tryInverse, if_pos h1]
    simp [ExtendedKalmanFilter.estimate, htry]
  · have htry : tryInverse (kfkc.sInnAt (kfkc.predictState est uu dt) lm) = none := by
      rw [tryInverse, if_pos h2]
    have hstep : kfkc.correctStep (kfkc.predictState est uu dt) idz
        = .error Fault.unwrapNone := by
      simp [ExtendedKalmanFilterKnownCorrespondences.correctStep, hlm, htry]
    simp [ExtendedKalmanFilterKnownCorrespondences.estimate, hf, foldE, hstep]

/-- C2 witness: a concrete filter pair with zero measurement noise and zero
Jacobians, whose innovation covariances are singular. -/
theorem c2_witness :
    ((ekfS.sInn gsC (vec1 0) 0).det = 0
      ∧ ([((0 : ℤ), vec1 0)].filter (fun iz => (ekfkcC.landmarks iz.1).isSome)
          = ((0 : ℤ), vec1 0) :: [])
      ∧ ekfkcC.landmarks 0 = some (vec1 0)
      ∧ (ekfkcC.sInnAt (ekfkcC.predictState gsC (vec1 0) 0) (vec1 0)).det = 0)
    ∧ ekfS.estimate gsC (vec1 0) (vec1 0) 0 = .error Fault.unwrapNone
    ∧ ekfkcC.estimate gsC (vec1 0) [((0 : ℤ), vec1 0)] 0 = .error Fault.unwrapNone := by
  have h1 : (ekfS.sInn gsC (vec1 0) 0).det = 0 := by
    have hs : ekfS.sInn gsC (vec1 0) 0 = 0 := by
      simp [ExtendedKalmanFilter.sInn, ExtendedKalmanFilter.hJac, ExtendedKalmanFilter.pPred,
        ekfS, mmC, moC]
    rw [hs]
    exact Matrix.det_zero ⟨(0 : Fin 1)⟩
  have hf : [((0 : ℤ), vec1 0)].filter (fun iz => (ekfkcC.landmarks iz.1).isSome)
      = ((0 : ℤ), vec1 0) :: [] := by
    norm_num [ekfkcC]
  have hlm : ekfkcC.landmarks 0 = some (vec1 0) := by
    norm_num [ekfkcC]
  have h2 : (ekfkcC.sInnAt (ekfkcC.predictState gsC (vec1 0) 0) (vec1 0)).det = 0 := by
    have hs : ekfkcC.sInnAt (ekfkcC.predictState gsC (vec1 0) 0) (vec1 0) = 0 := by
      simp [ExtendedKalmanFilterKnownCorrespondences.sInnAt, ekfkcC, mmC]
    rw [hs]
    exact Matrix.det_zero ⟨(0 : Fin 1)⟩
  have h := c2_singular_innovation ekfS ekfkcC gsC (vec1 0) (vec1 0) 0
    [((0 : ℤ), vec1 0)] ((0 : ℤ), vec1 0) [] (vec1 0) h1 hf hlm h2
  exact ⟨⟨h1, hf, hlm, h2⟩, h.1, h.2⟩

end RoboticsRs
